import Mathlib

/-!
Verification of the page consolidation and split engine of a log-structured
B-tree (the `tree/data.rs` and `tree/node.rs` modules of the sled storage
layer).  Pure functions of the source are embedded as Lean functions;
in-place mutation of a `Node` is embedded as a function returning the next
`Node` value; the source's `panic!`/`expect` aborts are embedded as
`Except`/`Option` failures carrying the error taxonomy of the design
document.  The prefix codec, `Bound`, and `Frag` live outside the two
embedded modules and are modelled from the specification where noted.
-/

namespace Sled

/-- A key or value is an opaque byte sequence (`Vec<u8>` in the source). -/
abbrev Key := List Nat

abbrev Value := List Nat

/-- An opaque external page handle (`usize` in the source). -/
abbrev PageID := Nat

/-- Lexicographic byte-wise comparison of two byte sequences: the derived
`Ord` of `Vec<u8>` used by the source for decoded keys. -/
def lexCmp : List Nat → List Nat → Ordering
  | [], [] => Ordering.eq
  | [], _ :: _ => Ordering.lt
  | _ :: _, [] => Ordering.gt
  | a :: as, b :: bs =>
    if a < b then Ordering.lt else if b < a then Ordering.gt else lexCmp as bs

theorem lexCmp_self (a : List Nat) : lexCmp a a = Ordering.eq := by
  induction a with
  | nil => rfl
  | cons x xs ih => simp [lexCmp, ih]

theorem lexCmp_eq_iff {a b : List Nat} : lexCmp a b = Ordering.eq ↔ a = b := by
  constructor
  · intro h
    induction a generalizing b with
    | nil => cases b with
      | nil => rfl
      | cons y ys => simp [lexCmp] at h
    | cons x xs ih =>
      cases b with
      | nil => simp [lexCmp] at h
      | cons y ys =>
        simp only [lexCmp] at h
        split at h
        · exact absurd h (by simp)
        · split at h
          · exact absurd h (by simp)
          · have hxy : x = y := by omega
            have := ih h
            simp [hxy, this]
  · intro h; subst h; exact lexCmp_self a

theorem lexCmp_swap (a b : List Nat) : lexCmp b a = (lexCmp a b).swap := by
  induction a generalizing b with
  | nil => cases b <;> rfl
  | cons x xs ih =>
    cases b with
    | nil => rfl
    | cons y ys =>
      rcases Nat.lt_trichotomy x y with h | h | h
      · have h' : ¬ y < x := by omega
        simp [lexCmp, h, h', Ordering.swap]
      · subst h
        simp [lexCmp, Nat.lt_irrefl, ih]
      · have h' : ¬ x < y := by omega
        simp [lexCmp, h, h', Ordering.swap]

theorem lexCmp_lt_trans {a b c : List Nat} (hab : lexCmp a b = Ordering.lt)
    (hbc : lexCmp b c = Ordering.lt) : lexCmp a c = Ordering.lt := by
  induction a generalizing b c with
  | nil =>
    cases c with
    | nil =>
      cases b with
      | nil => exact hbc
      | cons y ys => simp [lexCmp] at hbc
    | cons z zs => simp [lexCmp]
  | cons x xs ih =>
    cases b with
    | nil => simp [lexCmp] at hab
    | cons y ys =>
      cases c with
      | nil => simp [lexCmp] at hbc
      | cons z zs =>
        simp only [lexCmp] at hab hbc ⊢
        split_ifs at hab hbc ⊢ <;> first
          | rfl
          | omega
          | (exact absurd hab (by simp))
          | (exact absurd hbc (by simp))
          | (exact ih hab hbc)

theorem isLE_iff {o : Ordering} : o.isLE = true ↔ o = Ordering.lt ∨ o = Ordering.eq := by
  cases o <;> simp [Ordering.isLE]

theorem lexCmp_isLE_trans {a b c : List Nat} (hab : (lexCmp a b).isLE = true)
    (hbc : (lexCmp b c).isLE = true) : (lexCmp a c).isLE = true := by
  rcases isLE_iff.mp hab with h1 | h1
  · rcases isLE_iff.mp hbc with h2 | h2
    · exact isLE_iff.mpr (Or.inl (lexCmp_lt_trans h1 h2))
    · have : b = c := lexCmp_eq_iff.mp h2
      subst this
      exact isLE_iff.mpr (Or.inl h1)
  · have : a = b := lexCmp_eq_iff.mp h1
    subst this
    exact hbc

theorem lexCmp_isLE_total (a b : List Nat) :
    (lexCmp a b).isLE = true ∨ (lexCmp b a).isLE = true := by
  rw [lexCmp_swap a b]
  cases lexCmp a b <;> simp [Ordering.swap, Ordering.isLE]

theorem lexCmp_isLE_antisymm {a b : List Nat} (h1 : (lexCmp a b).isLE = true)
    (h2 : (lexCmp b a).isLE = true) : a = b := by
  rw [lexCmp_swap a b] at h2
  apply lexCmp_eq_iff.mp
  cases h : lexCmp a b <;> rw [h] at h1 h2 <;> first
    | rfl
    | simp [Ordering.swap, Ordering.isLE] at h1 h2

/-- Length of the longest common byte prefix of two keys. -/
def commonPrefixLen : List Nat → List Nat → Nat
  | a :: as, b :: bs => if a = b then commonPrefixLen as bs + 1 else 0
  | _, _ => 0

/-- Modelled from the spec: the prefix codec stores, for a full key encoded
against a page's low-boundary key, the length of the longest common byte
prefix with the boundary followed by the remaining suffix bytes (the length
occupies the first position of the encoded byte sequence). -/
def prefix_encode (pfx k : Key) : Key :=
  commonPrefixLen pfx k :: k.drop (commonPrefixLen pfx k)

/-- Modelled from the spec: decoding reads the stored shared-prefix length,
takes that many bytes from the boundary key and appends the stored suffix. -/
def prefix_decode (pfx ek : Key) : Key :=
  match ek with
  | [] => []
  | l :: rest => pfx.take l ++ rest

theorem commonPrefixLen_take (pfx k : List Nat) :
    pfx.take (commonPrefixLen pfx k) = k.take (commonPrefixLen pfx k) := by
  induction pfx generalizing k with
  | nil => cases k <;> simp [commonPrefixLen]
  | cons x xs ih =>
    cases k with
    | nil => simp [commonPrefixLen]
    | cons y ys =>
      by_cases h : x = y
      · simp [commonPrefixLen, h, ih ys]
      · simp [commonPrefixLen, h]

theorem prefix_decode_encode (pfx k : Key) :
    prefix_decode pfx (prefix_encode pfx k) = k := by
  simp only [prefix_encode, prefix_decode]
  rw [commonPrefixLen_take]
  exact List.take_append_drop _ k

/-- Modelled from the spec: comparison of two keys encoded against the same
boundary, without decoding.  When both stored prefix lengths agree the
suffixes are compared lexicographically; otherwise the entry that shares the
longer prefix with the boundary orders first (all keys of one page are at or
above the page's low boundary, so a longer shared prefix means a smaller
key).  Empty encodings order below non-empty ones. -/
def prefix_cmp : List Nat → List Nat → Ordering
  | [], [] => Ordering.eq
  | [], _ :: _ => Ordering.lt
  | _ :: _, [] => Ordering.gt
  | la :: sa, lb :: sb =>
    if lb < la then Ordering.lt else if la < lb then Ordering.gt else lexCmp sa sb

theorem prefix_cmp_self (a : List Nat) : prefix_cmp a a = Ordering.eq := by
  cases a with
  | nil => rfl
  | cons x xs => simp [prefix_cmp, lexCmp_self]

theorem prefix_cmp_eq_iff {a b : List Nat} : prefix_cmp a b = Ordering.eq ↔ a = b := by
  constructor
  · intro h
    cases a with
    | nil => cases b with
      | nil => rfl
      | cons y ys => simp [prefix_cmp] at h
    | cons x xs =>
      cases b with
      | nil => simp [prefix_cmp] at h
      | cons y ys =>
        simp only [prefix_cmp] at h
        split at h
        · exact absurd h (by simp)
        · split at h
          · exact absurd h (by simp)
          · have hxy : x = y := by omega
            simp [hxy, lexCmp_eq_iff.mp h]
  · intro h; subst h; exact prefix_cmp_self a

theorem prefix_cmp_swap (a b : List Nat) : prefix_cmp b a = (prefix_cmp a b).swap := by
  cases a with
  | nil => cases b <;> rfl
  | cons x xs =>
    cases b with
    | nil => rfl
    | cons y ys =>
      rcases Nat.lt_trichotomy x y with h | h | h
      · have h' : ¬ y < x := by omega
        simp [prefix_cmp, h, h', Ordering.swap]
      · subst h
        simp only [prefix_cmp, Nat.lt_irrefl, if_false]
        exact lexCmp_swap xs ys
      · have h' : ¬ x < y := by omega
        simp [prefix_cmp, h, h', Ordering.swap]

theorem prefix_cmp_lt_trans {a b c : List Nat} (hab : prefix_cmp a b = Ordering.lt)
    (hbc : prefix_cmp b c = Ordering.lt) : prefix_cmp a c = Ordering.lt := by
  cases a with
  | nil =>
    cases c with
    | nil =>
      cases b with
      | nil => exact hbc
      | cons y ys => simp [prefix_cmp] at hbc
    | cons z zs => simp [prefix_cmp]
  | cons x xs =>
    cases b with
    | nil => simp [prefix_cmp] at hab
    | cons y ys =>
      cases c with
      | nil => simp [prefix_cmp] at hbc
      | cons z zs =>
        simp only [prefix_cmp] at hab hbc ⊢
        split_ifs at hab hbc ⊢ <;> first
          | rfl
          | omega
          | (exact absurd hab (by simp))
          | (exact absurd hbc (by simp))
          | (exact lexCmp_lt_trans hab hbc)

theorem prefix_cmp_isLE_trans {a b c : List Nat} (hab : (prefix_cmp a b).isLE = true)
    (hbc : (prefix_cmp b c).isLE = true) : (prefix_cmp a c).isLE = true := by
  rcases isLE_iff.mp hab with h1 | h1
  · rcases isLE_iff.mp hbc with h2 | h2
    · exact isLE_iff.mpr (Or.inl (prefix_cmp_lt_trans h1 h2))
    · have : b = c := prefix_cmp_eq_iff.mp h2
      subst this
      exact isLE_iff.mpr (Or.inl h1)
  · have : a = b := prefix_cmp_eq_iff.mp h1
    subst this
    exact hbc

theorem prefix_cmp_isLE_total (a b : List Nat) :
    (prefix_cmp a b).isLE = true ∨ (prefix_cmp b a).isLE = true := by
  rw [prefix_cmp_swap a b]
  cases prefix_cmp a b <;> simp [Ordering.swap, Ordering.isLE]

/-- Insertion step of the comparator sort used to model the source's
`sort`/`sort_unstable_by` calls. -/
def insertB (le : α → α → Bool) (a : α) : List α → List α
  | [] => [a]
  | b :: l => if le a b then a :: b :: l else b :: insertB le a l

/-- Comparator sort modelling the source's `sort` (stable) and
`sort_unstable_by` calls; on the duplicate-free data of a page any
comparator sort produces the same list. -/
def sortByB (le : α → α → Bool) : List α → List α
  | [] => []
  | a :: l => insertB le a (sortByB le l)

theorem insertB_perm (le : α → α → Bool) (a : α) (l : List α) :
    List.Perm (insertB le a l) (a :: l) := by
  induction l with
  | nil => rfl
  | cons b t ih =>
    simp only [insertB]
    split
    · rfl
    · exact (ih.cons b).trans (List.Perm.swap a b t)

theorem sortByB_perm (le : α → α → Bool) (l : List α) : List.Perm (sortByB le l) l := by
  induction l with
  | nil => rfl
  | cons a t ih => exact (insertB_perm le a (sortByB le t)).trans (ih.cons a)

theorem sortByB_length (le : α → α → Bool) (l : List α) :
    (sortByB le l).length = l.length :=
  (sortByB_perm le l).length_eq

theorem mem_sortByB {le : α → α → Bool} {l : List α} {x : α} :
    x ∈ sortByB le l ↔ x ∈ l :=
  (sortByB_perm le l).mem_iff

theorem mem_insertB {le : α → α → Bool} {l : List α} {a x : α} :
    x ∈ insertB le a l ↔ x = a ∨ x ∈ l := by
  rw [(insertB_perm le a l).mem_iff]
  simp

theorem insertB_sorted {le : α → α → Bool}
    (htot : ∀ x y, le x y = true ∨ le y x = true)
    (htr : ∀ x y z, le x y = true → le y z = true → le x z = true)
    {l : List α} (hs : l.Pairwise (fun x y => le x y = true)) (a : α) :
    (insertB le a l).Pairwise (fun x y => le x y = true) := by
  induction l with
  | nil => simp [insertB]
  | cons b t ih =>
    rcases hs with _ | ⟨hb, ht⟩
    by_cases hab : le a b = true
    · simp only [insertB, hab, if_true]
      constructor
      · intro y hy
        rcases List.mem_cons.mp hy with rfl | hy
        · exact hab
        · exact htr a b y hab (hb y hy)
      · exact List.Pairwise.cons hb ht
    · have hab' : le a b = false := by simpa using hab
      simp only [insertB, hab', Bool.false_eq_true, if_false]
      constructor
      · intro y hy
        rcases mem_insertB.mp hy with h' | hy
        · rw [h']
          rcases htot a b with h | h
          · exact absurd h hab
          · exact h
        · exact hb y hy
      · exact ih ht

theorem sortByB_sorted {le : α → α → Bool}
    (htot : ∀ x y, le x y = true ∨ le y x = true)
    (htr : ∀ x y z, le x y = true → le y z = true → le x z = true)
    (l : List α) : (sortByB le l).Pairwise (fun x y => le x y = true) := by
  induction l with
  | nil => simp [sortByB]
  | cons a t ih => exact insertB_sorted htot htr ih a

/-- Two lists sorted by an antisymmetric comparator that are permutations of
each other are equal. -/
theorem sorted_perm_eq {le : α → α → Bool}
    (hanti : ∀ x y, le x y = true → le y x = true → x = y) :
    ∀ {l₁ l₂ : List α}, List.Perm l₁ l₂ →
      l₁.Pairwise (fun x y => le x y = true) →
      l₂.Pairwise (fun x y => le x y = true) → l₁ = l₂ := by
  intro l₁
  induction l₁ with
  | nil => intro l₂ hp _ _; exact (List.Perm.eq_nil hp.symm).symm
  | cons a t₁ ih =>
    intro l₂ hp h₁ h₂
    cases l₂ with
    | nil => exact absurd (List.Perm.eq_nil hp) (by simp)
    | cons b t₂ =>
      rcases h₁ with _ | ⟨ha, ht₁⟩
      rcases h₂ with _ | ⟨hb, ht₂⟩
      have hab : a = b := by
        have hma : a ∈ b :: t₂ := hp.subset (by simp)
        have hmb : b ∈ a :: t₁ := hp.symm.subset (by simp)
        rcases List.mem_cons.mp hma with h | h
        · exact h
        · rcases List.mem_cons.mp hmb with h' | h'
          · exact h'.symm
          · exact hanti a b (ha b h') (hb a h)
      subst hab
      have : List.Perm t₁ t₂ := hp.cons_inv
      rw [ih this ht₁ ht₂]

/-- Models Rust's `slice::binary_search_by` as the equivalent left-to-right
scan: on a list sorted by the comparator the `binary_search_by` contract
(`Ok` at an index whose element compares equal, otherwise `Err` at the
insertion point) determines exactly this result. -/
def binarySearchBy (f : α → Ordering) : List α → Sum Nat Nat
  | [] => Sum.inr 0
  | a :: l =>
    match f a with
    | Ordering.lt =>
      match binarySearchBy f l with
      | Sum.inl i => Sum.inl (i + 1)
      | Sum.inr i => Sum.inr (i + 1)
    | Ordering.eq => Sum.inl 0
    | Ordering.gt => Sum.inr 0

theorem binarySearchBy_no_eq {f : α → Ordering} {l : List α}
    (h : ∀ a ∈ l, f a ≠ Ordering.eq) : ∃ j, binarySearchBy f l = Sum.inr j := by
  induction l with
  | nil => exact ⟨0, rfl⟩
  | cons a t ih =>
    have ha := h a (by simp)
    cases hfa : f a with
    | lt =>
      obtain ⟨j, hj⟩ := ih (fun x hx => h x (by simp [hx]))
      exact ⟨j + 1, by simp [binarySearchBy, hfa, hj]⟩
    | eq => exact absurd hfa ha
    | gt => exact ⟨0, by simp [binarySearchBy, hfa]⟩

/-- On a list sorted by `le` that contains a unique element comparing equal
to the target, the search finds exactly that element, and everything before
it compares below the target. -/
theorem binarySearchBy_found {f : α → Ordering} {le : α → α → Bool}
    (hax : ∀ a b, le a b = true → f b = Ordering.eq → f a ≠ Ordering.gt) :
    ∀ {l : List α} {x : α}, l.Pairwise (fun p q => le p q = true) →
      x ∈ l → f x = Ordering.eq → (∀ y ∈ l, f y = Ordering.eq → y = x) →
      ∃ A B, l = A ++ x :: B ∧ binarySearchBy f l = Sum.inl A.length ∧
        ∀ y ∈ A, f y = Ordering.lt := by
  intro l
  induction l with
  | nil => intro x _ hx; simp at hx
  | cons a t ih =>
    intro x hs hx hfx huniq
    rcases hs with _ | ⟨ha, ht⟩
    cases hfa : f a with
    | eq =>
      have : a = x := huniq a (by simp) hfa
      subst this
      exact ⟨[], t, rfl, by simp [binarySearchBy, hfa], by simp⟩
    | lt =>
      have hxt : x ∈ t := by
        rcases List.mem_cons.mp hx with rfl | h
        · rw [hfa] at hfx; exact absurd hfx (by simp)
        · exact h
      obtain ⟨A, B, hl, hb, hA⟩ :=
        ih ht hxt hfx (fun y hy => huniq y (by simp [hy]))
      refine ⟨a :: A, B, by simp [hl], ?_, ?_⟩
      · simp [binarySearchBy, hfa, hb]
      · intro y hy
        rcases List.mem_cons.mp hy with rfl | h
        · exact hfa
        · exact hA y h
    | gt =>
      exfalso
      rcases List.mem_cons.mp hx with rfl | h
      · rw [hfa] at hfx; exact absurd hfx (by simp)
      · exact hax a x (ha x h) hfx hfa

/-- Models Rust's `Vec::swap_remove`: replaces the element at the index with
the last element and shrinks the vector by one. -/
def swapRemove (xs : List α) (idx : Nat) : List α :=
  match xs.getLast? with
  | none => xs
  | some last => (xs.set idx last).dropLast

theorem set_append_left (l : List α) (z y : α) {i : Nat} (h : i < l.length) :
    (l ++ [z]).set i y = l.set i y ++ [z] := by
  induction l generalizing i with
  | nil => simp at h
  | cons a t ih =>
    cases i with
    | zero => simp
    | succ j =>
      simp only [List.cons_append, List.set_cons_succ]
      rw [ih (by simpa using h)]

theorem swapRemove_append {l : List α} {z : α} {i : Nat} (h : i < l.length) :
    swapRemove (l ++ [z]) i = l.set i z := by
  simp only [swapRemove, List.getLast?_concat]
  rw [set_append_left l z z h, List.dropLast_concat]

theorem getD_append_len (A : List α) (x : α) (B : List α) (d : α) :
    (A ++ x :: B).getD A.length d = x := by
  induction A with
  | nil => rfl
  | cons a t ih => simpa using ih

theorem set_append_len (A : List α) (x z : α) (B : List α) :
    (A ++ x :: B).set A.length z = A ++ z :: B := by
  induction A with
  | nil => rfl
  | cons a t ih => simp [ih]

theorem eraseIdx_append_len (A : List α) (x : α) (B : List α) :
    (A ++ x :: B).eraseIdx A.length = A ++ B := by
  induction A with
  | nil => rfl
  | cons a t ih => simpa using ih

theorem mem_of_mem_swapRemove {xs : List α} {i : Nat} {y : α}
    (h : y ∈ swapRemove xs i) : y ∈ xs := by
  unfold swapRemove at h
  cases hl : xs.getLast? with
  | none => rw [hl] at h; exact h
  | some last =>
    rw [hl] at h
    have h1 : y ∈ xs.set i last := List.dropLast_subset _ h
    rcases List.mem_or_eq_of_mem_set h1 with h2 | h2
    · exact h2
    · subst h2
      exact List.mem_of_getLast?_eq_some hl

theorem find?_append_of_none {p : α → Bool} {l₁ : List α}
    (h : l₁.find? p = none) (l₂ : List α) :
    (l₁ ++ l₂).find? p = l₂.find? p := by
  induction l₁ with
  | nil => rfl
  | cons a t ih =>
    rw [List.find?_cons] at h
    cases hp : p a with
    | true => rw [hp] at h; simp at h
    | false =>
      rw [hp] at h
      simp only [List.cons_append, List.find?_cons, hp]
      exact ih h

theorem find?_eq_some_of_unique {p : α → Bool} {l : List α} {x : α}
    (hm : x ∈ l) (hp : p x = true) (hu : ∀ y ∈ l, p y = true → y = x) :
    l.find? p = some x := by
  induction l with
  | nil => simp at hm
  | cons a t ih =>
    cases hpa : p a with
    | true =>
      have hax : a = x := hu a (by simp) hpa
      subst hax
      simp [List.find?_cons, hpa]
    | false =>
      have hxt : x ∈ t := by
        rcases List.mem_cons.mp hm with rfl | h
        · rw [hpa] at hp; simp at hp
        · exact h
      simp only [List.find?_cons, hpa]
      exact ih hxt (fun y hy => hu y (by simp [hy]))

/-- Modelled from the spec: a key-range endpoint, `Inclusive(key)` or
`Exclusive(key)`. -/
inductive Bound where
  | Inclusive : Key → Bound
  | Exclusive : Key → Bound
deriving DecidableEq

/-- The key carried by a bound (`Bound::inner` in the source's callers). -/
def Bound.inner : Bound → Key
  | Bound.Inclusive k => k
  | Bound.Exclusive k => k

/-- Modelled from the spec: the ordering on bounds backing the source's
`Bound::Inclusive(decoded_k) < self.hi` range test.  It realises the
half-open `[lo, hi)` page-range semantics of the data model: an `Exclusive`
bound used as an upper endpoint excludes its own key, so `Exclusive(k)` sits
immediately below `Inclusive(k)`, making the decoded-key-below-hi test a
strict byte-wise comparison (cf. the transition table's "decoded key < hi"
precondition and the `drop_gte` retain-strictly-less rule of the source). -/
def Bound.lt : Bound → Bound → Bool
  | Bound.Inclusive a, Bound.Inclusive b => decide (lexCmp a b = Ordering.lt)
  | Bound.Inclusive a, Bound.Exclusive b => decide (lexCmp a b = Ordering.lt)
  | Bound.Exclusive a, Bound.Inclusive b => (lexCmp a b).isLE
  | Bound.Exclusive a, Bound.Exclusive b => decide (lexCmp a b = Ordering.lt)

/-- Observer: the low endpoint admits the key (`lo ≤ k` side of `[lo, hi)`). -/
def Bound.leKey : Bound → Key → Bool
  | Bound.Inclusive a, k => (lexCmp a k).isLE
  | Bound.Exclusive a, k => decide (lexCmp a k = Ordering.lt)

/-- Observer: membership of a decoded key in the half-open page range
`[lo, hi)`. -/
def keyInRange (lo hi : Bound) (k : Key) : Bool :=
  lo.leKey k && Bound.lt (Bound.Inclusive k) hi

/-- The generic ordered key-to-value list of `tree/data.rs`
(`Pointers<T>`). -/
structure Pointers (T : Type) where
  ptrs : List (Key × T)
deriving DecidableEq

def Pointers.len (p : Pointers T) : Nat :=
  p.ptrs.length

def Pointers.get (p : Pointers T) (idx : Nat) : Option (Key × T) :=
  p.ptrs.get? idx

/-- `Pointers::push_and_sort`: append, then re-sort by the prefix
comparator. -/
def Pointers.push_and_sort (p : Pointers T) (key_value : Key × T) : Pointers T :=
  ⟨sortByB (fun a b => (prefix_cmp a.1 b.1).isLE) (p.ptrs ++ [key_value])⟩

/-- `Pointers::search`: binary search by the prefix comparator
(`Ok index` as `Sum.inl`, `Err insertion_point` as `Sum.inr`). -/
def Pointers.search (p : Pointers T) (encoded_key : Key) : Sum Nat Nat :=
  binarySearchBy (fun kv => prefix_cmp kv.1 encoded_key) p.ptrs

/-- Comparison of `(decoded key, value)` pairs: the derived `Ord` of Rust
tuples used by `decoded_xs.sort()`, lexicographic on the key first and the
value second. -/
def pairCmp (cmpT : T → T → Ordering) (a b : Key × T) : Ordering :=
  match lexCmp a.1 b.1 with
  | Ordering.eq => cmpT a.2 b.2
  | o => o

/-- The decoded-and-sorted intermediate list of the split algorithm
(`decoded_xs` after `sort()`). -/
def decSorted (cmpT : T → T → Ordering) (xs : List (Key × T)) (pfx : Key) :
    List (Key × T) :=
  sortByB (fun a b => (pairCmp cmpT a b).isLE)
    (xs.map fun kv => (prefix_decode pfx kv.1, kv.2))

/-- The split-point algorithm shared by `Pointers::split` and the
`split_inner` helper of `Data::split`: decode every entry against the left
boundary, sort, partition at `len / 2 + 1`, take the first entry of the
right part as the split key and re-encode the right part against it.  The
source aborts (`split_at` out of bounds for an empty list, or
`first().expect` for an empty right part) when fewer than three entries are
present; both abort paths are modelled as `none`. -/
def splitInner (cmpT : T → T → Ordering) (xs : List (Key × T)) (pfx : Key) :
    Option (Key × List (Key × T)) :=
  match ((decSorted cmpT xs pfx).drop
      ((decSorted cmpT xs pfx).length / 2 + 1)).head? with
  | none => none
  | some first =>
    some (first.1,
      ((decSorted cmpT xs pfx).drop
          ((decSorted cmpT xs pfx).length / 2 + 1)).map
        fun kv => (prefix_encode first.1 kv.1, kv.2))

/-- The derived `Ord` of `usize` page identifiers. -/
def natCmp (a b : Nat) : Ordering :=
  if a < b then Ordering.lt else if b < a then Ordering.gt else Ordering.eq

/-- `Pointers::split` of the source: the same algorithm as `split_inner`,
duplicated verbatim in `tree/data.rs` for the generic pointer list. -/
def Pointers.split (p : Pointers PageID) (pfx : Key) :
    Option (Key × Pointers PageID) :=
  (splitInner natCmp p.ptrs pfx).map fun sr => (sr.1, ⟨sr.2⟩)

/-- A page's body: child pointers for an index page, record pairs for a
leaf page (`Data` of `tree/data.rs`). -/
inductive Data where
  | Index : Pointers PageID → Data
  | Leaf : List (Key × Value) → Data
deriving DecidableEq

/-- `Data::index` constructor helper. -/
def Data.index (index_vec : List (Key × PageID)) : Data :=
  Data.Index ⟨index_vec⟩

/-- `Data::len`. -/
def Data.len : Data → Nat
  | Data.Index p => p.len
  | Data.Leaf items => items.length

/-- `Data::split`: dispatches the split-point algorithm to the active
variant and rewraps the right half in the same variant. -/
def Data.split : Data → Key → Option (Key × Data)
  | Data.Index p, pfx => (p.split pfx).map fun sr => (sr.1, Data.Index sr.2)
  | Data.Leaf items, pfx =>
    (splitInner lexCmp items pfx).map fun sr => (sr.1, Data.Leaf sr.2)

/-- `Data::drop_gte`: retain only the entries whose decoded key is strictly
below the bound's key. -/
def Data.drop_gte (d : Data) (at_ : Bound) (pfx : Key) : Data :=
  match d with
  | Data.Index p =>
    Data.Index ⟨p.ptrs.filter fun kv =>
      decide (lexCmp (prefix_decode pfx kv.1) at_.inner = Ordering.lt)⟩
  | Data.Leaf items =>
    Data.Leaf (items.filter fun kv =>
      decide (lexCmp (prefix_decode pfx kv.1) at_.inner = Ordering.lt))

/-- `Data::leaf`: the leaf records, or `none` on an index payload. -/
def Data.leaf : Data → Option (List (Key × Value))
  | Data.Index _ => none
  | Data.Leaf items => some items

/-- `Data::leaf_ref`: identical observable behaviour to `Data::leaf` (the
source returns a borrowed rather than cloned sequence). -/
def Data.leaf_ref : Data → Option (List (Key × Value))
  | Data.Index _ => none
  | Data.Leaf items => some items

/-- Observer: every stored key of a payload, decoded against the boundary. -/
def Data.decodedKeys : Data → Key → List Key
  | Data.Index p, pfx => p.ptrs.map fun kv => prefix_decode pfx kv.1
  | Data.Leaf items, pfx => items.map fun kv => prefix_decode pfx kv.1

/-- Sorting of plain decoded keys, used to state split-balance facts. -/
def sortKeys (ks : List Key) : List Key :=
  sortByB (fun a b => (lexCmp a b).isLE) ks

/-- `ChildSplit { at, to }` of the fragment model. -/
structure ChildSplit where
  at_ : Bound
  to_ : PageID
deriving DecidableEq

/-- `ParentSplit { at, to }` of the fragment model. -/
structure ParentSplit where
  at_ : Bound
  to_ : PageID
deriving DecidableEq

/-- Modelled from the spec: the fragment variants replayed by
`Node::apply`.  The source's `Base` constructor carries a checkpoint payload
that `apply` never inspects (it aborts on any `Base`), so it is modelled
without a payload. -/
inductive Frag where
  | Set : Key → Value → Frag
  | Merge : Key → Value → Frag
  | Del : Key → Frag
  | ChildSplit : ChildSplit → Frag
  | ParentSplit : ParentSplit → Frag
  | Base : Frag

/-- Modelled from the spec: an already-resolved merge operator
`(key, old_value, new_value) -> Option<Value>` (the source reinterprets a
raw numeric handle; the design notes require receiving a resolved callable,
which is what a caller-supplied function models). -/
def MergeOperator : Type := Key → Option Value → Value → Option Value

/-- The error taxonomy of the design document, standing for the source's
`panic!`/`expect` aborts during fragment replay. -/
inductive ApplyError where
  | ConsolidationInvariant : ApplyError
  | MissingMergeOperator : ApplyError
  | UnexpectedBaseFragment : ApplyError
deriving DecidableEq

/-- The materialized page (`Node` of `tree/node.rs`). -/
structure Node where
  id : PageID
  data : Data
  next : Option PageID
  lo : Bound
  hi : Bound
deriving DecidableEq

/-- `Node::prefix_decode_key`: decode a stored key against the page's low
boundary. -/
def Node.prefix_decode_key (n : Node) (key : Key) : Key :=
  prefix_decode n.lo.inner key

/-- `Node::set_leaf`: upsert into the leaf records — replace in place on an
exact match (`push` + `swap_remove`), otherwise append and re-sort.  The
source's panic on an index payload is the `ConsolidationInvariant` failure
of the taxonomy. -/
def Node.set_leaf (n : Node) (key : Key) (val : Value) :
    Except ApplyError Node :=
  match n.data with
  | Data.Leaf records =>
    match binarySearchBy (fun r => prefix_cmp r.1 key) records with
    | Sum.inl idx =>
      Except.ok { n with data := Data.Leaf (swapRemove (records ++ [(key, val)]) idx) }
    | Sum.inr _ =>
      let resorted := sortByB (fun a b => (prefix_cmp a.1 b.1).isLE) (records ++ [(key, val)])
      Except.ok { n with data := Data.Leaf resorted }
  | Data.Index _ => Except.error ApplyError.ConsolidationInvariant

/-- `Node::merge_leaf`: look up the existing value at the encoded key,
invoke the merge operator with the decoded key and the old value (if any);
a `some` result upserts, a `none` result deletes. -/
def Node.merge_leaf (n : Node) (key : Key) (val : Value)
    (merge_fn : MergeOperator) : Except ApplyError Node :=
  match n.data with
  | Data.Leaf records =>
    match binarySearchBy (fun r => prefix_cmp r.1 key) records with
    | Sum.inl idx =>
      match merge_fn (n.prefix_decode_key key)
          (some (records.getD idx ([], [])).2) val with
      | some new =>
        Except.ok { n with data := Data.Leaf (swapRemove (records ++ [(key, new)]) idx) }
      | none =>
        Except.ok { n with data := Data.Leaf (records.eraseIdx idx) }
    | Sum.inr _ =>
      match merge_fn (n.prefix_decode_key key) none val with
      | some new =>
        let resorted := sortByB (fun a b => (prefix_cmp a.1 b.1).isLE) (records ++ [(key, new)])
        Except.ok { n with data := Data.Leaf resorted }
      | none => Except.ok n
  | Data.Index _ => Except.error ApplyError.ConsolidationInvariant

/-- `Node::child_split`: truncate to the split point, set the new upper
bound and remember the right sibling. -/
def Node.child_split (n : Node) (cs : ChildSplit) : Node :=
  { n with
    data := n.data.drop_gte cs.at_ n.lo.inner,
    hi := Bound.Exclusive cs.at_.inner,
    next := some cs.to_ }

/-- `Node::parent_split`: insert the separator, encoded against this index
page's low boundary. -/
def Node.parent_split (n : Node) (ps : ParentSplit) : Except ApplyError Node :=
  match n.data with
  | Data.Index p =>
    let inserted := p.push_and_sort (prefix_encode n.lo.inner ps.at_.inner, ps.to_)
    Except.ok { n with data := Data.Index inserted }
  | Data.Leaf _ => Except.error ApplyError.ConsolidationInvariant

/-- `Node::del_leaf`: remove the entry at the encoded key if present. -/
def Node.del_leaf (n : Node) (key : Key) : Except ApplyError Node :=
  match n.data with
  | Data.Leaf records =>
    match binarySearchBy (fun r => prefix_cmp r.1 key) records with
    | Sum.inl idx => Except.ok { n with data := Data.Leaf (records.eraseIdx idx) }
    | Sum.inr _ => Except.ok n
  | Data.Index _ => Except.error ApplyError.ConsolidationInvariant

/-- `Node::apply`: replay one fragment onto the materialized page.  The
source mutates in place and panics on precondition violations; the
embedding returns the next page value or the corresponding error of the
taxonomy (per the design document the check precedes any mutation, so an
error leaves no partial state). -/
def Node.apply (n : Node) (frag : Frag) (merge_operator : Option MergeOperator) :
    Except ApplyError Node :=
  match frag with
  | Frag.Set k v =>
    if Bound.lt (Bound.Inclusive (n.prefix_decode_key k)) n.hi then
      n.set_leaf k v
    else Except.error ApplyError.ConsolidationInvariant
  | Frag.Merge k v =>
    if Bound.lt (Bound.Inclusive (n.prefix_decode_key k)) n.hi then
      match merge_operator with
      | some merge_fn => n.merge_leaf k v merge_fn
      | none => Except.error ApplyError.MissingMergeOperator
    else Except.error ApplyError.ConsolidationInvariant
  | Frag.ChildSplit cs => Except.ok (n.child_split cs)
  | Frag.ParentSplit ps => n.parent_split ps
  | Frag.Del k =>
    if Bound.lt (Bound.Inclusive (n.prefix_decode_key k)) n.hi then
      n.del_leaf k
    else Except.error ApplyError.ConsolidationInvariant
  | Frag.Base => Except.error ApplyError.UnexpectedBaseFragment

/-- `Node::should_split`. -/
def Node.should_split (n : Node) (fanout : Nat) : Bool :=
  decide (fanout < n.data.len)

/-- `Node::split`: compute the right sibling for a fresh page id; the
original page is untouched (the source takes `&self`).  `none` models the
abort inside `Data::split` on an undersized payload. -/
def Node.split (n : Node) (id : PageID) : Option Node :=
  (n.data.split n.lo.inner).map fun sr =>
    { id := id, data := sr.2, next := n.next,
      lo := Bound.Inclusive sr.1, hi := n.hi }

/-- Observer: every entry of the page, decoded against `lo`, lies in the
half-open range `[lo, hi)` — the data-model range invariant. -/
def Node.entriesInRange (n : Node) : Bool :=
  (n.data.decodedKeys n.lo.inner).all fun k => keyInRange n.lo n.hi k

/-- Observer: the value stored in a leaf page at an encoded key. -/
def Node.leafValue (n : Node) (key : Key) : Option Value :=
  match n.data with
  | Data.Leaf records =>
    (records.find? fun r => decide (prefix_cmp r.1 key = Ordering.eq)).map
      fun r => r.2
  | Data.Index _ => none

/-- Replay a whole fragment chain, stopping at the first failure. -/
def applyChain (n : Node) (merge_operator : Option MergeOperator) :
    List Frag → Except ApplyError Node
  | [] => Except.ok n
  | f :: fs =>
    match n.apply f merge_operator with
    | Except.ok n' => applyChain n' merge_operator fs
    | Except.error e => Except.error e

/-- A fragment is well-formed for the page it is applied to: the keys of
`Set`/`Merge` upserts decode at or above `lo`, and a `ParentSplit`
separator lies inside the page's range.  (These are the preconditions under
which the chain was appended, per the design rationale; `apply` itself
checks only the `hi` side.) -/
def fragOk (n : Node) : Frag → Bool
  | Frag.Set k _ => n.lo.leKey (n.prefix_decode_key k)
  | Frag.Merge k _ => n.lo.leKey (n.prefix_decode_key k)
  | Frag.Del _ => true
  | Frag.ChildSplit _ => true
  | Frag.ParentSplit ps => keyInRange n.lo n.hi ps.at_.inner
  | Frag.Base => true

/-- Every fragment of the chain is well-formed for the page state it meets
during replay. -/
def chainOk (n : Node) (merge_operator : Option MergeOperator) :
    List Frag → Bool
  | [] => true
  | f :: fs =>
    fragOk n f &&
      match n.apply f merge_operator with
      | Except.ok n' => chainOk n' merge_operator fs
      | Except.error _ => true

deriving instance DecidableEq for Except

theorem decSorted_length (cmpT : T → T → Ordering) (xs : List (Key × T))
    (pfx : Key) : (decSorted cmpT xs pfx).length = xs.length := by
  simp [decSorted, sortByB_length]

theorem splitInner_isSome (cmpT : T → T → Ordering) (xs : List (Key × T))
    (pfx : Key) : (splitInner cmpT xs pfx).isSome = true ↔ 3 ≤ xs.length := by
  have hlen := decSorted_length cmpT xs pfx
  unfold splitInner
  rw [hlen]
  cases h : ((decSorted cmpT xs pfx).drop (xs.length / 2 + 1)).head? with
  | none =>
    have hnil := List.head?_eq_none_iff.mp h
    have hz := congrArg List.length hnil
    simp only [List.length_drop, List.length_nil] at hz
    rw [hlen] at hz
    exact ⟨fun hc => by simp at hc, fun hc => (by omega : False).elim⟩
  | some first =>
    have hne : ((decSorted cmpT xs pfx).drop (xs.length / 2 + 1)) ≠ [] := by
      intro hc
      rw [hc] at h
      simp at h
    have hlt : xs.length / 2 + 1 < xs.length := by
      by_contra hc
      refine hne (List.drop_eq_nil_iff.mpr ?_)
      rw [hlen]
      omega
    exact ⟨fun _ => by omega, fun _ => rfl⟩

/-- C9: on a `Leaf` payload both accessors return the record sequence; on an
`Index` payload both return an absent result rather than an error or
abort (they are total functions into `Option`). -/
theorem C9_leaf_accessors :
    (∀ p : Pointers PageID,
      (Data.Index p).leaf = none ∧ (Data.Index p).leaf_ref = none) ∧
    (∀ rs : List (Key × Value),
      (Data.Leaf rs).leaf = some rs ∧ (Data.Leaf rs).leaf_ref = some rs) :=
  ⟨fun _ => ⟨rfl, rfl⟩, fun _ => ⟨rfl, rfl⟩⟩

/-- C4: a `Set` whose decoded key is not strictly below `hi`, or a `Set`
aimed at an `Index` payload, fails with `ConsolidationInvariant`; the
functional embedding returns the error and no successor state, matching the
source where the failing check precedes every mutation. -/
theorem C4_set_invariant_violation (n : Node) (k : Key) (v : Value)
    (mo : Option MergeOperator)
    (h : Bound.lt (Bound.Inclusive (n.prefix_decode_key k)) n.hi = false ∨
      ∃ p, n.data = Data.Index p) :
    n.apply (Frag.Set k v) mo = Except.error ApplyError.ConsolidationInvariant := by
  rcases h with h | ⟨p, hp⟩
  · simp [Node.apply, h]
  · by_cases hg : Bound.lt (Bound.Inclusive (n.prefix_decode_key k)) n.hi = true
    · simp [Node.apply, hg, Node.set_leaf, hp]
    · have : Bound.lt (Bound.Inclusive (n.prefix_decode_key k)) n.hi = false := by
        simpa using hg
      simp [Node.apply, this]

def c4node : Node :=
  { id := 7, data := Data.Leaf [], next := none,
    lo := Bound.Inclusive [], hi := Bound.Exclusive [109] }

theorem C4_set_invariant_violation_witness :
    c4node.apply (Frag.Set [0, 122] [1]) none =
      Except.error ApplyError.ConsolidationInvariant :=
  C4_set_invariant_violation c4node [0, 122] [1] none (Or.inl (by decide))

/-- C7: `split` leaves the original page untouched (the embedding of the
borrowing `&self` method is a pure function of the page) and, whenever the
payload split succeeds, returns a node with the fresh id, the right
payload, the inherited `next` and `hi`, and `lo = Inclusive(split key)`. -/
theorem C7_split_frame (n : Node) (nid : PageID) (sk : Key) (rd : Data)
    (h : n.data.split n.lo.inner = some (sk, rd)) :
    n.split nid = some
      { id := nid, data := rd, next := n.next,
        lo := Bound.Inclusive sk, hi := n.hi } := by
  simp [Node.split, h]

def c7node : Node :=
  { id := 3, data := Data.Leaf [([0, 97], [1]), ([0, 98], [2]), ([0, 99], [3]), ([0, 100], [4])],
    next := some 9, lo := Bound.Inclusive [], hi := Bound.Exclusive [] }

theorem C7_split_frame_witness :
    c7node.split 5 = some
      { id := 5, data := Data.Leaf [([1], [4])], next := some 9,
        lo := Bound.Inclusive [100], hi := Bound.Exclusive [] } :=
  C7_split_frame c7node 5 [100] (Data.Leaf [([1], [4])]) (by decide)

/-- C8: on an empty leaf page, `Set(k,v)` followed by `Del(k)` restores the
original page exactly, for any key admitted by the page's upper bound. -/
theorem C8_set_del_inverse (n : Node) (k : Key) (v : Value)
    (mo : Option MergeOperator) (hd : n.data = Data.Leaf [])
    (hg : Bound.lt (Bound.Inclusive (n.prefix_decode_key k)) n.hi = true) :
    (n.apply (Frag.Set k v) mo).bind (fun n1 => n1.apply (Frag.Del k) mo) =
      Except.ok n := by
  cases n with
  | mk nid ndata nnext nlo nhi =>
    simp only at hd
    subst hd
    simp only [Node.prefix_decode_key] at hg
    simp [Node.apply, Node.prefix_decode_key, hg, Node.set_leaf, Node.del_leaf,
      binarySearchBy, sortByB, insertB, prefix_cmp_self, Except.bind,
      List.eraseIdx]

def c8node : Node :=
  { id := 2, data := Data.Leaf [], next := some 4,
    lo := Bound.Inclusive [109], hi := Bound.Exclusive [120] }

theorem C8_set_del_inverse_witness :
    (c8node.apply (Frag.Set [1, 113] [5, 6]) none).bind
      (fun n1 => n1.apply (Frag.Del [1, 113]) none) = Except.ok c8node :=
  C8_set_del_inverse c8node [1, 113] [5, 6] none (by decide) (by decide)

def c5Payload : Data := Data.Leaf [([0, 97], [1]), ([0, 98], [2])]

/-- C5 counterexample: the claim says a two-entry payload splits without
failure, but on a payload of exactly two entries the source's right half is
empty and the `first().expect` aborts (modelled as `none`). -/
theorem C5_counterexample : c5Payload.len = 2 ∧ c5Payload.split [] = none := by
  decide

/-- C5 amended: `split` succeeds exactly on payloads with at least three
entries; on payloads of two or fewer entries (including the empty and
single-element cases) it fails loudly by aborting rather than proceeding. -/
theorem C5_split_defined_iff (d : Data) (pfx : Key) :
    (d.split pfx).isSome = true ↔ 3 ≤ d.len := by
  cases d with
  | Index p =>
    simp only [Data.split, Pointers.split, Data.len, Pointers.len,
      Option.map_map, Option.isSome_map']
    exact splitInner_isSome natCmp p.ptrs pfx
  | Leaf items =>
    simp only [Data.split, Data.len, Option.isSome_map']
    exact splitInner_isSome lexCmp items pfx

def c1Payload : Data :=
  Data.Leaf [([0, 97], [1]), ([0, 98], [2]), ([0, 99], [3]), ([0, 100], [4])]

/-- C1 counterexample: on a four-entry payload the claim predicts a right
half of `4/2 + 1 = 3` entries, but the source's `split_at(n/2 + 1)` keeps
`n/2 + 1` entries on the left and returns only the remainder (one entry) as
the right half. -/
theorem C1_counterexample :
    c1Payload.len = 4 ∧
    (c1Payload.split []).map (fun sr => sr.2.len) = some 1 ∧
    (1 : Nat) ≠ 4 / 2 + 1 := by
  decide

def c3Start : Node :=
  { id := 0,
    data := Data.Leaf [([0, 97], [1]), ([0, 98], [2]), ([0, 99], [3]), ([0, 100], [4])],
    next := none, lo := Bound.Inclusive [], hi := Bound.Exclusive [] }

def c3Right : Node :=
  { id := 1, data := Data.Leaf [([1], [4])], next := none,
    lo := Bound.Inclusive [100], hi := Bound.Exclusive [] }

def c3Left : Node :=
  { id := 0,
    data := Data.Leaf [([0, 97], [1]), ([0, 98], [2]), ([0, 99], [3])],
    next := some 1, lo := Bound.Inclusive [], hi := Bound.Exclusive [100] }

/-- C3 counterexample: in the four-key scenario the computed split key is
"d" (byte 100), not "c" (byte 99): the right page's `lo` is
`Inclusive("d")`, and after the resulting `ChildSplit` the left page holds
three entries with `hi = Exclusive("d")`, contradicting the claimed
`{"a","b"}` / `Exclusive("c")` outcome. -/
theorem C3_counterexample :
    c3Start.split 1 = some c3Right ∧
    c3Right.lo = Bound.Inclusive [100] ∧
    Bound.Inclusive ([100] : Key) ≠ Bound.Inclusive [99] ∧
    c3Start.apply (Frag.ChildSplit { at_ := Bound.Inclusive [100], to_ := 1 }) none =
      Except.ok c3Left ∧
    c3Left.data ≠ Data.Leaf [([0, 97], [1]), ([0, 98], [2])] ∧
    c3Left.hi ≠ Bound.Exclusive [99] := by
  decide

/-- C3 amended: with keys "a".."d" and fanout 2, the page should split; the
split yields a right page owning exactly {"d"} with `lo = Inclusive("d")`
and the inherited `hi`, and applying the resulting `ChildSplit` leaves the
left page with exactly {"a","b","c"}, `hi = Exclusive("d")` and
`next = Some(right_id)`. -/
theorem C3_amended_scenario :
    c3Start.should_split 2 = true ∧
    c3Start.split 1 = some c3Right ∧
    c3Start.apply (Frag.ChildSplit { at_ := Bound.Inclusive [100], to_ := 1 }) none =
      Except.ok c3Left ∧
    c3Left.data = Data.Leaf [([0, 97], [1]), ([0, 98], [2]), ([0, 99], [3])] ∧
    c3Left.hi = Bound.Exclusive [100] ∧
    c3Left.next = some 1 ∧
    c3Right.data = Data.Leaf [([1], [4])] ∧
    c3Right.lo = Bound.Inclusive [100] ∧
    c3Right.hi = c3Start.hi := by
  decide

theorem natCmp_swap (a b : Nat) : natCmp b a = (natCmp a b).swap := by
  unfold natCmp
  split_ifs <;> first | rfl | omega

theorem natCmp_lt_trans {a b c : Nat} (hab : natCmp a b = Ordering.lt)
    (hbc : natCmp b c = Ordering.lt) : natCmp a c = Ordering.lt := by
  unfold natCmp at hab hbc ⊢
  split_ifs at hab hbc ⊢ <;> first
    | rfl
    | omega
    | (exact absurd hab (by simp))
    | (exact absurd hbc (by simp))

theorem natCmp_eq_iff {a b : Nat} : natCmp a b = Ordering.eq ↔ a = b := by
  unfold natCmp
  split_ifs <;> simp <;> omega

theorem pairCmp_swap {T : Type} {cmpT : T → T → Ordering}
    (hsw : ∀ a b, cmpT b a = (cmpT a b).swap) (a b : Key × T) :
    pairCmp cmpT b a = (pairCmp cmpT a b).swap := by
  unfold pairCmp
  rw [lexCmp_swap a.1 b.1]
  cases lexCmp a.1 b.1 with
  | lt => rfl
  | gt => rfl
  | eq => exact hsw a.2 b.2

theorem pairCmp_eq_iff {T : Type} {cmpT : T → T → Ordering}
    (heq : ∀ a b, cmpT a b = Ordering.eq ↔ a = b) {a b : Key × T} :
    pairCmp cmpT a b = Ordering.eq ↔ a = b := by
  unfold pairCmp
  cases hk : lexCmp a.1 b.1 with
  | lt =>
    simp only []
    constructor
    · intro hc; exact absurd hc (by simp)
    · intro hc
      rw [hc, lexCmp_self] at hk
      exact absurd hk (by simp)
  | gt =>
    simp only []
    constructor
    · intro hc; exact absurd hc (by simp)
    · intro hc
      rw [hc, lexCmp_self] at hk
      exact absurd hk (by simp)
  | eq =>
    have hk1 : a.1 = b.1 := lexCmp_eq_iff.mp hk
    simp only []
    rw [heq a.2 b.2]
    constructor
    · intro hv
      exact Prod.ext hk1 hv
    · intro hab
      rw [hab]

theorem pairCmp_lt_trans {T : Type} {cmpT : T → T → Ordering}
    (htr : ∀ a b c, cmpT a b = Ordering.lt → cmpT b c = Ordering.lt →
      cmpT a c = Ordering.lt)
    {a b c : Key × T} (hab : pairCmp cmpT a b = Ordering.lt)
    (hbc : pairCmp cmpT b c = Ordering.lt) : pairCmp cmpT a c = Ordering.lt := by
  unfold pairCmp at hab hbc ⊢
  cases h1 : lexCmp a.1 b.1 with
  | gt => rw [h1] at hab; exact absurd hab (by simp)
  | lt =>
    cases h2 : lexCmp b.1 c.1 with
    | gt => rw [h2] at hbc; exact absurd hbc (by simp)
    | lt => rw [lexCmp_lt_trans h1 h2]
    | eq =>
      have : b.1 = c.1 := lexCmp_eq_iff.mp h2
      rw [← this, h1]
  | eq =>
    have he : a.1 = b.1 := lexCmp_eq_iff.mp h1
    rw [h1] at hab
    cases h2 : lexCmp b.1 c.1 with
    | gt => rw [h2] at hbc; exact absurd hbc (by simp)
    | lt => rw [he, h2]
    | eq =>
      rw [h2] at hbc
      rw [he, h2]
      exact htr a.2 b.2 c.2 hab hbc

theorem pairLe_total {T : Type} {cmpT : T → T → Ordering}
    (hsw : ∀ a b, cmpT b a = (cmpT a b).swap) (a b : Key × T) :
    (pairCmp cmpT a b).isLE = true ∨ (pairCmp cmpT b a).isLE = true := by
  rw [pairCmp_swap hsw a b]
  cases pairCmp cmpT a b <;> simp [Ordering.swap, Ordering.isLE]

theorem pairLe_trans {T : Type} {cmpT : T → T → Ordering}
    (htr : ∀ a b c, cmpT a b = Ordering.lt → cmpT b c = Ordering.lt →
      cmpT a c = Ordering.lt)
    (heq : ∀ a b, cmpT a b = Ordering.eq ↔ a = b)
    {a b c : Key × T} (hab : (pairCmp cmpT a b).isLE = true)
    (hbc : (pairCmp cmpT b c).isLE = true) : (pairCmp cmpT a c).isLE = true := by
  rcases isLE_iff.mp hab with h1 | h1
  · rcases isLE_iff.mp hbc with h2 | h2
    · exact isLE_iff.mpr (Or.inl (pairCmp_lt_trans htr h1 h2))
    · have : b = c := (pairCmp_eq_iff heq).mp h2
      subst this
      exact isLE_iff.mpr (Or.inl h1)
  · have : a = b := (pairCmp_eq_iff heq).mp h1
    subst this
    exact hbc

/-- Split-balance facts of the shared split algorithm: the right half it
returns is exactly the `len/2 + 1`-th tail of the entries sorted by decoded
key, its size is `n - (n/2 + 1)`, the split key is its smallest decoded
key, and (for duplicate-free decoded keys) every decoded key of the left
part is strictly below every decoded key of the right half. -/
theorem splitInner_balance {T : Type} (cmpT : T → T → Ordering)
    (hsw : ∀ a b, cmpT b a = (cmpT a b).swap)
    (htr : ∀ a b c, cmpT a b = Ordering.lt → cmpT b c = Ordering.lt →
      cmpT a c = Ordering.lt)
    (heq : ∀ a b, cmpT a b = Ordering.eq ↔ a = b)
    (xs : List (Key × T)) (pfx sk : Key) (rhs : List (Key × T))
    (h : splitInner cmpT xs pfx = some (sk, rhs)) :
    rhs.length = xs.length - (xs.length / 2 + 1)
    ∧ rhs.map (fun kv => prefix_decode sk kv.1) =
        (sortKeys (xs.map fun kv => prefix_decode pfx kv.1)).drop (xs.length / 2 + 1)
    ∧ sk ∈ rhs.map (fun kv => prefix_decode sk kv.1)
    ∧ (∀ b ∈ rhs.map (fun kv => prefix_decode sk kv.1), (lexCmp sk b).isLE = true)
    ∧ ((xs.map fun kv => prefix_decode pfx kv.1).Nodup →
        ∀ a ∈ (sortKeys (xs.map fun kv => prefix_decode pfx kv.1)).take (xs.length / 2 + 1),
        ∀ b ∈ rhs.map (fun kv => prefix_decode sk kv.1), lexCmp a b = Ordering.lt) := by
  have hlen := decSorted_length cmpT xs pfx
  unfold splitInner at h
  rw [hlen] at h
  cases hh : ((decSorted cmpT xs pfx).drop (xs.length / 2 + 1)).head? with
  | none => rw [hh] at h; simp at h
  | some first =>
    rw [hh] at h
    dsimp only at h
    simp only [Option.some.injEq, Prod.mk.injEq] at h
    obtain ⟨hsk, hrhs⟩ := h
    obtain ⟨tl, htl⟩ : ∃ tl,
        (decSorted cmpT xs pfx).drop (xs.length / 2 + 1) = first :: tl := by
      cases hd : (decSorted cmpT xs pfx).drop (xs.length / 2 + 1) with
      | nil => rw [hd] at hh; simp at hh
      | cons a tl =>
        rw [hd] at hh
        simp only [List.head?_cons, Option.some.injEq] at hh
        exact ⟨tl, by rw [hh]⟩
    subst hsk
    subst hrhs
    -- the key sequence of the sorted decoded list equals the sorted key list
    have hkeys : (xs.map fun kv => (prefix_decode pfx kv.1, kv.2)).map Prod.fst =
        xs.map fun kv => prefix_decode pfx kv.1 := by
      simp [List.map_map, Function.comp]
    have hSsortedPairs := @sortByB_sorted _
      (fun a b => (pairCmp cmpT a b).isLE) (pairLe_total hsw)
      (fun x y z hxy hyz => pairLe_trans htr heq hxy hyz)
      (xs.map fun kv => (prefix_decode pfx kv.1, kv.2))
    have hSsorted : ((decSorted cmpT xs pfx).map Prod.fst).Pairwise
        (fun a b => (lexCmp a b).isLE = true) := by
      refine List.Pairwise.map Prod.fst ?_ hSsortedPairs
      intro a b hab
      rcases isLE_iff.mp hab with hlt | heq2
      · unfold pairCmp at hlt
        cases hk : lexCmp a.1 b.1 with
        | lt => simp [hk, Ordering.isLE]
        | eq => simp [hk, Ordering.isLE]
        | gt => rw [hk] at hlt; exact absurd hlt (by simp)
      · unfold pairCmp at heq2
        cases hk : lexCmp a.1 b.1 with
        | lt => simp [hk, Ordering.isLE]
        | eq => simp [hk, Ordering.isLE]
        | gt => rw [hk] at heq2; exact absurd heq2 (by simp)
    have hSperm : List.Perm ((decSorted cmpT xs pfx).map Prod.fst)
        (xs.map fun kv => prefix_decode pfx kv.1) := by
      have := (sortByB_perm (fun a b => (pairCmp cmpT a b).isLE)
        (xs.map fun kv => (prefix_decode pfx kv.1, kv.2))).map Prod.fst
      rw [hkeys] at this
      exact this
    have hKsorted : (sortKeys (xs.map fun kv => prefix_decode pfx kv.1)).Pairwise
        (fun a b => (lexCmp a b).isLE = true) :=
      @sortByB_sorted _ (fun a b => (lexCmp a b).isLE) lexCmp_isLE_total
        (fun x y z => lexCmp_isLE_trans) _
    have hKperm : List.Perm (sortKeys (xs.map fun kv => prefix_decode pfx kv.1))
        (xs.map fun kv => prefix_decode pfx kv.1) :=
      sortByB_perm _ _
    have hSeq : (decSorted cmpT xs pfx).map Prod.fst =
        sortKeys (xs.map fun kv => prefix_decode pfx kv.1) :=
      sorted_perm_eq (fun x y => lexCmp_isLE_antisymm)
        (hSperm.trans hKperm.symm) hSsorted hKsorted
    -- the decoded right-half keys are exactly the dropped tail of the sorted keys
    have hdec : (((decSorted cmpT xs pfx).drop (xs.length / 2 + 1)).map
          fun kv => (prefix_encode first.1 kv.1, kv.2)).map
            (fun kv => prefix_decode first.1 kv.1) =
        (sortKeys (xs.map fun kv => prefix_decode pfx kv.1)).drop (xs.length / 2 + 1) := by
      rw [List.map_map]
      have : ((decSorted cmpT xs pfx).drop (xs.length / 2 + 1)).map
          ((fun kv => prefix_decode first.1 kv.1) ∘
            fun kv => (prefix_encode first.1 kv.1, kv.2)) =
          ((decSorted cmpT xs pfx).drop (xs.length / 2 + 1)).map Prod.fst := by
        refine List.map_congr_left ?_
        intro a _
        simp [Function.comp, prefix_decode_encode]
      rw [this, List.map_drop, hSeq]
    refine ⟨?_, hdec, ?_, ?_, ?_⟩
    · simp only [List.length_map, List.length_drop]
      rw [hlen]
    · rw [hdec, ← hSeq, ← List.map_drop, htl]
      simp
    · intro b hb
      rw [hdec, ← hSeq, ← List.map_drop, htl] at hb
      have hdropSorted : (((decSorted cmpT xs pfx).drop (xs.length / 2 + 1)).map
          Prod.fst).Pairwise (fun a b => (lexCmp a b).isLE = true) := by
        rw [List.map_drop]
        exact hSsorted.drop
      rw [htl] at hdropSorted
      simp only [List.map_cons] at hdropSorted hb
      rcases List.mem_cons.mp hb with hb1 | hb2
      · rw [hb1, lexCmp_self]; rfl
      · rcases List.pairwise_cons.mp hdropSorted with ⟨hhead, _⟩
        exact hhead b hb2
    · intro hnd a ha b hb
      have hSnodup : ((decSorted cmpT xs pfx).map Prod.fst).Nodup := by
        rw [hSeq]
        exact (hKperm.nodup_iff).mpr hnd
      have hSstrict : ((decSorted cmpT xs pfx).map Prod.fst).Pairwise
          (fun a b => lexCmp a b = Ordering.lt) := by
        refine (hSsorted.and hSnodup).imp ?_
        intro x y hxy
        rcases isLE_iff.mp hxy.1 with hlt | heq2
        · exact hlt
        · exact absurd (lexCmp_eq_iff.mp heq2) hxy.2
      rw [hdec, ← hSeq] at hb
      rw [← hSeq] at ha
      have hsplit := List.take_append_drop (xs.length / 2 + 1)
        ((decSorted cmpT xs pfx).map Prod.fst)
      rw [← hsplit] at hSstrict
      exact (List.pairwise_append.mp hSstrict).2.2 a ha b hb

/-- C1 amended: for a payload with pairwise-distinct decoded keys whose
split succeeds, `split` partitions the entries sorted by decoded key with
`n/2 + 1` entries on the LEFT and `n - (n/2 + 1)` on the right (the source's
`split_at(n/2 + 1)` keeps the first `n/2 + 1` entries on the left — the
claim's right/left counts are swapped); every right-half decoded key is
greater than every left-half decoded key; and the returned split key is the
smallest decoded key of the right half. -/
theorem C1_split_balance (d : Data) (pfx sk : Key) (rd : Data)
    (hnd : (d.decodedKeys pfx).Nodup)
    (h : d.split pfx = some (sk, rd)) :
    rd.len = d.len - (d.len / 2 + 1)
    ∧ rd.decodedKeys sk = (sortKeys (d.decodedKeys pfx)).drop (d.len / 2 + 1)
    ∧ sk ∈ rd.decodedKeys sk
    ∧ (∀ b ∈ rd.decodedKeys sk, (lexCmp sk b).isLE = true)
    ∧ (∀ a ∈ (sortKeys (d.decodedKeys pfx)).take (d.len / 2 + 1),
        ∀ b ∈ rd.decodedKeys sk, lexCmp a b = Ordering.lt) := by
  cases d with
  | Leaf items =>
    simp only [Data.split] at h
    cases hsi : splitInner lexCmp items pfx with
    | none => rw [hsi] at h; simp at h
    | some sr =>
      obtain ⟨s1, r1⟩ := sr
      rw [hsi] at h
      simp only [Option.map_some', Option.some.injEq, Prod.mk.injEq] at h
      obtain ⟨hs1, hr1⟩ := h
      subst hs1
      subst hr1
      obtain ⟨hl, hd2, hmem, hmin, hstrict⟩ := splitInner_balance lexCmp
        (fun a b => lexCmp_swap a b) (fun a b c hab hbc => lexCmp_lt_trans hab hbc)
        (fun a b => lexCmp_eq_iff) items pfx s1 r1 hsi
      exact ⟨hl, hd2, hmem, hmin, hstrict hnd⟩
  | Index p =>
    simp only [Data.split, Pointers.split, Option.map_map] at h
    cases hsi : splitInner natCmp p.ptrs pfx with
    | none => rw [hsi] at h; simp at h
    | some sr =>
      obtain ⟨s1, r1⟩ := sr
      rw [hsi] at h
      simp only [Option.map_some', Option.some.injEq, Function.comp,
        Prod.mk.injEq] at h
      obtain ⟨hs1, hr1⟩ := h
      subst hs1
      subst hr1
      obtain ⟨hl, hd2, hmem, hmin, hstrict⟩ := splitInner_balance natCmp
        natCmp_swap (fun a b c hab hbc => natCmp_lt_trans hab hbc)
        (fun a b => natCmp_eq_iff) p.ptrs pfx s1 r1 hsi
      exact ⟨hl, hd2, hmem, hmin, hstrict hnd⟩

def c1wPayload : Data :=
  Data.Leaf [([0, 98], [2]), ([0, 97], [1]), ([0, 100], [4]), ([0, 99], [3]), ([0, 101], [5])]

def c1wRight : Data := Data.Leaf [([1], [4]), ([0, 101], [5])]

theorem C1_split_balance_witness :
    c1wRight.len = c1wPayload.len - (c1wPayload.len / 2 + 1)
    ∧ c1wRight.decodedKeys [100] =
        (sortKeys (c1wPayload.decodedKeys [])).drop (c1wPayload.len / 2 + 1)
    ∧ [100] ∈ c1wRight.decodedKeys [100]
    ∧ (∀ b ∈ c1wRight.decodedKeys [100], (lexCmp [100] b).isLE = true)
    ∧ (∀ a ∈ (sortKeys (c1wPayload.decodedKeys [])).take (c1wPayload.len / 2 + 1),
        ∀ b ∈ c1wRight.decodedKeys [100], lexCmp a b = Ordering.lt) :=
  C1_split_balance c1wPayload [] [100] c1wRight (by decide) (by decide)

theorem entriesInRange_iff {n : Node} :
    n.entriesInRange = true ↔
      ∀ k ∈ n.data.decodedKeys n.lo.inner, keyInRange n.lo n.hi k = true := by
  simp [Node.entriesInRange, List.all_eq_true]

theorem apply_preserves_range (n n' : Node) (f : Frag)
    (mo : Option MergeOperator) (hinv : n.entriesInRange = true)
    (hok : fragOk n f = true) (h : n.apply f mo = Except.ok n') :
    n'.entriesInRange = true := by
  have hinv' := entriesInRange_iff.mp hinv
  cases f with
  | Set k v =>
    by_cases hg : Bound.lt (Bound.Inclusive (n.prefix_decode_key k)) n.hi = true
    · simp only [Node.apply, hg, if_true] at h
      simp only [Node.set_leaf] at h
      cases hd : n.data with
      | Index p => rw [hd] at h; simp at h
      | Leaf rs =>
        rw [hd] at h
        dsimp only at h
        simp only [fragOk] at hok
        cases hs : binarySearchBy (fun r => prefix_cmp r.1 k) rs with
        | inl idx =>
          rw [hs] at h
          dsimp only at h
          simp only [Except.ok.injEq] at h
          subst h
          refine entriesInRange_iff.mpr ?_
          intro dk hdk
          simp only [Data.decodedKeys, List.mem_map] at hdk
          obtain ⟨r, hr, hrk⟩ := hdk
          have hr' : r ∈ rs ∨ r = (k, v) := by
            have h1 := mem_of_mem_swapRemove hr
            rcases List.mem_append.mp h1 with h2 | h2
            · exact Or.inl h2
            · simp at h2; exact Or.inr h2
          subst hrk
          rcases hr' with hmem | hnew
          · have := hinv' (prefix_decode n.lo.inner r.1)
              (by rw [hd]; simp only [Data.decodedKeys, List.mem_map]; exact ⟨r, hmem, rfl⟩)
            exact this
          · subst hnew
            simp only [keyInRange, Bool.and_eq_true]
            exact ⟨hok, hg⟩
        | inr ins =>
          rw [hs] at h
          dsimp only at h
          simp only [Except.ok.injEq] at h
          subst h
          refine entriesInRange_iff.mpr ?_
          intro dk hdk
          simp only [Data.decodedKeys, List.mem_map] at hdk
          obtain ⟨r, hr, hrk⟩ := hdk
          have hr' : r ∈ rs ∨ r = (k, v) := by
            have h1 := mem_sortByB.mp hr
            rcases List.mem_append.mp h1 with h2 | h2
            · exact Or.inl h2
            · simp at h2; exact Or.inr h2
          subst hrk
          rcases hr' with hmem | hnew
          · exact hinv' (prefix_decode n.lo.inner r.1)
              (by rw [hd]; simp only [Data.decodedKeys, List.mem_map]; exact ⟨r, hmem, rfl⟩)
          · subst hnew
            simp only [keyInRange, Bool.and_eq_true]
            exact ⟨hok, hg⟩
    · simp only [Node.apply] at h
      rw [if_neg (by simpa using hg)] at h
      simp at h
  | Merge k v =>
    by_cases hg : Bound.lt (Bound.Inclusive (n.prefix_decode_key k)) n.hi = true
    · simp only [Node.apply, hg, if_true] at h
      cases mo with
      | none => simp at h
      | some mf =>
        simp only [Node.merge_leaf] at h
        cases hd : n.data with
        | Index p => rw [hd] at h; simp at h
        | Leaf rs =>
          rw [hd] at h
          dsimp only at h
          simp only [fragOk] at hok
          have hold : ∀ r ∈ rs, keyInRange n.lo n.hi (prefix_decode n.lo.inner r.1) = true := by
            intro r hmem
            exact hinv' (prefix_decode n.lo.inner r.1)
              (by rw [hd]; simp only [Data.decodedKeys, List.mem_map]; exact ⟨r, hmem, rfl⟩)
          cases hs : binarySearchBy (fun r => prefix_cmp r.1 k) rs with
          | inl idx =>
            rw [hs] at h
            dsimp only at h
            cases hm : mf (n.prefix_decode_key k) (some (rs.getD idx ([], [])).2) v with
            | some nv =>
              rw [hm] at h
              dsimp only at h
              simp only [Except.ok.injEq] at h
              subst h
              refine entriesInRange_iff.mpr ?_
              intro dk hdk
              simp only [Data.decodedKeys, List.mem_map] at hdk
              obtain ⟨r, hr, hrk⟩ := hdk
              subst hrk
              have h1 := mem_of_mem_swapRemove hr
              rcases List.mem_append.mp h1 with h2 | h2
              · exact hold r h2
              · simp at h2
                subst h2
                simp only [keyInRange, Bool.and_eq_true]
                exact ⟨hok, hg⟩
            | none =>
              rw [hm] at h
              dsimp only at h
              simp only [Except.ok.injEq] at h
              subst h
              refine entriesInRange_iff.mpr ?_
              intro dk hdk
              simp only [Data.decodedKeys, List.mem_map] at hdk
              obtain ⟨r, hr, hrk⟩ := hdk
              subst hrk
              exact hold r (List.mem_of_mem_eraseIdx hr)
          | inr ins =>
            rw [hs] at h
            dsimp only at h
            cases hm : mf (n.prefix_decode_key k) none v with
            | some nv =>
              rw [hm] at h
              dsimp only at h
              simp only [Except.ok.injEq] at h
              subst h
              refine entriesInRange_iff.mpr ?_
              intro dk hdk
              simp only [Data.decodedKeys, List.mem_map] at hdk
              obtain ⟨r, hr, hrk⟩ := hdk
              subst hrk
              have h1 := mem_sortByB.mp hr
              rcases List.mem_append.mp h1 with h2 | h2
              · exact hold r h2
              · simp at h2
                subst h2
                simp only [keyInRange, Bool.and_eq_true]
                exact ⟨hok, hg⟩
            | none =>
              rw [hm] at h
              dsimp only at h
              simp only [Except.ok.injEq] at h
              subst h
              exact hinv
    · simp only [Node.apply] at h
      rw [if_neg (by simpa using hg)] at h
      simp at h
  | Del k =>
    by_cases hg : Bound.lt (Bound.Inclusive (n.prefix_decode_key k)) n.hi = true
    · simp only [Node.apply, hg, if_true] at h
      simp only [Node.del_leaf] at h
      cases hd : n.data with
      | Index p => rw [hd] at h; simp at h
      | Leaf rs =>
        rw [hd] at h
        dsimp only at h
        cases hs : binarySearchBy (fun r => prefix_cmp r.1 k) rs with
        | inl idx =>
          rw [hs] at h
          dsimp only at h
          simp only [Except.ok.injEq] at h
          subst h
          refine entriesInRange_iff.mpr ?_
          intro dk hdk
          simp only [Data.decodedKeys, List.mem_map] at hdk
          obtain ⟨r, hr, hrk⟩ := hdk
          subst hrk
          exact hinv' (prefix_decode n.lo.inner r.1)
            (by rw [hd]; simp only [Data.decodedKeys, List.mem_map]
                exact ⟨r, List.mem_of_mem_eraseIdx hr, rfl⟩)
        | inr ins =>
          rw [hs] at h
          dsimp only at h
          simp only [Except.ok.injEq] at h
          subst h
          exact hinv
    · simp only [Node.apply] at h
      rw [if_neg (by simpa using hg)] at h
      simp at h
  | ChildSplit cs =>
    simp only [Node.apply, Except.ok.injEq] at h
    subst h
    refine entriesInRange_iff.mpr ?_
    intro dk hdk
    simp only [Node.child_split] at hdk ⊢
    cases hd : n.data with
    | Index p =>
      rw [hd] at hdk
      simp only [Data.drop_gte, Data.decodedKeys, List.mem_map] at hdk
      obtain ⟨r, hr, hrk⟩ := hdk
      subst hrk
      rw [List.mem_filter] at hr
      obtain ⟨hmem, hpred⟩ := hr
      have hlo := hinv' (prefix_decode n.lo.inner r.1)
        (by rw [hd]; simp only [Data.decodedKeys, List.mem_map]; exact ⟨r, hmem, rfl⟩)
      simp only [keyInRange, Bool.and_eq_true] at hlo ⊢
      refine ⟨hlo.1, ?_⟩
      simp only [Bound.lt]
      simpa using hpred
    | Leaf rs =>
      rw [hd] at hdk
      simp only [Data.drop_gte, Data.decodedKeys, List.mem_map] at hdk
      obtain ⟨r, hr, hrk⟩ := hdk
      subst hrk
      rw [List.mem_filter] at hr
      obtain ⟨hmem, hpred⟩ := hr
      have hlo := hinv' (prefix_decode n.lo.inner r.1)
        (by rw [hd]; simp only [Data.decodedKeys, List.mem_map]; exact ⟨r, hmem, rfl⟩)
      simp only [keyInRange, Bool.and_eq_true] at hlo ⊢
      refine ⟨hlo.1, ?_⟩
      simp only [Bound.lt]
      simpa using hpred
  | ParentSplit ps =>
    simp only [Node.apply, Node.parent_split] at h
    cases hd : n.data with
    | Leaf rs => rw [hd] at h; simp at h
    | Index p =>
      rw [hd] at h
      dsimp only at h
      simp only [Except.ok.injEq] at h
      subst h
      simp only [fragOk] at hok
      refine entriesInRange_iff.mpr ?_
      intro dk hdk
      simp only [Data.decodedKeys, Pointers.push_and_sort, List.mem_map] at hdk
      obtain ⟨r, hr, hrk⟩ := hdk
      subst hrk
      have h1 := mem_sortByB.mp hr
      rcases List.mem_append.mp h1 with h2 | h2
      · exact hinv' (prefix_decode n.lo.inner r.1)
          (by rw [hd]; simp only [Data.decodedKeys, List.mem_map]; exact ⟨r, h2, rfl⟩)
      · simp at h2
        subst h2
        rw [prefix_decode_encode]
        exact hok
  | Base => simp [Node.apply] at h

/-- C2 amended: the range invariant is preserved by any successfully applied
chain of fragments that are themselves in range: `apply` checks upsert keys
only against `hi`, so the amended statement additionally requires each
`Set`/`Merge` key to decode at or above `lo` and each `ParentSplit`
separator to lie inside `[lo, hi)` (the conditions under which the chain was
appended, per the design rationale); under these conditions every remaining
entry's decoded key stays inside `[lo, hi)`. -/
theorem C2_range_invariant (n n' : Node) (mo : Option MergeOperator)
    (fs : List Frag) (hinv : n.entriesInRange = true)
    (hok : chainOk n mo fs = true)
    (h : applyChain n mo fs = Except.ok n') : n'.entriesInRange = true := by
  induction fs generalizing n with
  | nil =>
    simp only [applyChain, Except.ok.injEq] at h
    subst h
    exact hinv
  | cons f fs ih =>
    simp only [chainOk, Bool.and_eq_true] at hok
    obtain ⟨hf, hrest⟩ := hok
    simp only [applyChain] at h
    cases ha : n.apply f mo with
    | error e => rw [ha] at h; simp at h
    | ok n1 =>
      rw [ha] at h hrest
      exact ih n1 (apply_preserves_range n n1 f mo hinv hf ha) hrest h

def c2wStart : Node :=
  { id := 0, data := Data.Leaf [([1, 110], [1])], next := none,
    lo := Bound.Inclusive [109], hi := Bound.Exclusive [122] }

def c2wEnd : Node :=
  { id := 0, data := Data.Leaf [([1, 110], [1]), ([1, 111], [2])], next := none,
    lo := Bound.Inclusive [109], hi := Bound.Exclusive [122] }

theorem C2_range_invariant_witness : c2wEnd.entriesInRange = true :=
  C2_range_invariant c2wStart c2wEnd none [Frag.Set [1, 111] [2]]
    (by decide) (by decide) (by decide)

theorem strict_unique {T : Type} {rs : List (Key × T)} {k : Key} {x : Key × T}
    (hs : rs.Pairwise (fun a b => prefix_cmp a.1 b.1 = Ordering.lt))
    (hx : x ∈ rs) (hxk : x.1 = k) :
    ∀ y ∈ rs, prefix_cmp y.1 k = Ordering.eq → y = x := by
  induction rs with
  | nil => simp
  | cons a t ih =>
    rcases hs with _ | ⟨ha, ht⟩
    intro y hy hyk
    have hyk' : y.1 = k := prefix_cmp_eq_iff.mp hyk
    rcases List.mem_cons.mp hy with rfl | hyt
    · rcases List.mem_cons.mp hx with rfl | hxt
      · rfl
      · exfalso
        have := ha x hxt
        rw [hyk', hxk] at this
        rw [prefix_cmp_self] at this
        exact absurd this (by simp)
    · rcases List.mem_cons.mp hx with rfl | hxt
      · exfalso
        have := ha y hyt
        rw [hxk, hyk'] at this
        rw [prefix_cmp_self] at this
        exact absurd this (by simp)
      · exact ih ht hxt y hyt hyk

/-- C10: applying `Set(k,v)` to a leaf whose sorted, duplicate-free records
already contain an entry with encoded key `k` replaces exactly that entry's
value (`push` + `swap_remove` at the found index): the record list becomes
the pointwise image that rewrites only the entry keyed `k`, so the entry
count, every other entry, and the order are unchanged, the list stays
sorted with unique keys, and `id`, `lo`, `hi`, `next` are untouched. -/
theorem C10_set_replaces_in_place (n : Node) (rs : List (Key × Value))
    (k : Key) (w v : Value) (mo : Option MergeOperator)
    (hd : n.data = Data.Leaf rs)
    (hsort : rs.Pairwise (fun a b => prefix_cmp a.1 b.1 = Ordering.lt))
    (hmem : (k, w) ∈ rs)
    (hg : Bound.lt (Bound.Inclusive (n.prefix_decode_key k)) n.hi = true) :
    n.apply (Frag.Set k v) mo = Except.ok
      { n with data := Data.Leaf (rs.map fun r => if r.1 = k then (k, v) else r) }
    ∧ (rs.map fun r => if r.1 = k then (k, v) else r).Pairwise
        (fun a b => prefix_cmp a.1 b.1 = Ordering.lt) := by
  have huniq : ∀ y ∈ rs, prefix_cmp y.1 k = Ordering.eq → y = (k, w) :=
    strict_unique hsort hmem rfl
  have hle : rs.Pairwise (fun a b => (prefix_cmp a.1 b.1).isLE = true) := by
    refine hsort.imp ?_
    intro a b hab
    have hab' : prefix_cmp a.1 b.1 = Ordering.lt := hab
    show (prefix_cmp a.1 b.1).isLE = true
    rw [hab']
    rfl
  obtain ⟨A, B, hAB, hbs, hAlt⟩ :=
    @binarySearchBy_found _ (fun r => prefix_cmp r.1 k)
      (fun a b => (prefix_cmp a.1 b.1).isLE)
      (by
        intro a b hab hbk
        have hab' : (prefix_cmp a.1 b.1).isLE = true := hab
        have hbk' : prefix_cmp b.1 k = Ordering.eq := hbk
        show prefix_cmp a.1 k ≠ Ordering.gt
        have hbk1 : b.1 = k := prefix_cmp_eq_iff.mp hbk'
        rw [← hbk1]
        intro hgt
        rw [hgt] at hab'
        exact absurd hab' (by decide))
      rs (k, w) hle hmem (prefix_cmp_self k) huniq
  have hAlen : A.length < rs.length := by
    rw [hAB]
    simp only [List.length_append, List.length_cons]
    omega
  -- keys of the untouched parts differ from k
  have hAkeys : ∀ a ∈ A, a.1 ≠ k := by
    intro a haA hak
    have h1 : prefix_cmp a.1 k = Ordering.lt := hAlt a haA
    rw [hak, prefix_cmp_self] at h1
    exact absurd h1 (by simp)
  have hpw := hsort
  rw [hAB] at hpw
  obtain ⟨pA, pKB, cross⟩ := List.pairwise_append.mp hpw
  obtain ⟨hkB, pB⟩ := List.pairwise_cons.mp pKB
  have hBkeys : ∀ b ∈ B, b.1 ≠ k := by
    intro b hbB hbk
    have h1 : prefix_cmp k b.1 = Ordering.lt := hkB b hbB
    rw [hbk, prefix_cmp_self] at h1
    exact absurd h1 (by simp)
  have hmap : rs.map (fun r => if r.1 = k then (k, v) else r) = A ++ (k, v) :: B := by
    rw [hAB, List.map_append, List.map_cons]
    have hA : A.map (fun r => if r.1 = k then (k, v) else r) = A :=
      List.map_congr_left (fun a ha => by
        rw [if_neg (hAkeys a ha)]; rfl) |>.trans (List.map_id A)
    have hB : B.map (fun r => if r.1 = k then (k, v) else r) = B :=
      List.map_congr_left (fun b hb => by
        rw [if_neg (hBkeys b hb)]; rfl) |>.trans (List.map_id B)
    rw [hA, hB]
    simp
  have hrec : swapRemove (rs ++ [(k, v)]) A.length =
      rs.map (fun r => if r.1 = k then (k, v) else r) := by
    rw [swapRemove_append hAlen, hmap, hAB]
    exact set_append_len A (k, w) (k, v) B
  constructor
  · simp only [Node.apply, hg, if_true, Node.set_leaf]
    rw [hd]
    dsimp only
    rw [hbs]
    dsimp only
    rw [hrec]
  · rw [hmap]
    refine List.pairwise_append.mpr ⟨pA, ?_, ?_⟩
    · refine List.pairwise_cons.mpr ⟨?_, pB⟩
      intro b hbB
      exact hkB b hbB
    · intro a haA b hbB
      rcases List.mem_cons.mp hbB with rfl | hbB'
      · exact cross a haA (k, w) (by simp)
      · exact cross a haA b (by simp [hbB'])

def c10node : Node :=
  { id := 4, data := Data.Leaf [([1, 98], [7]), ([1, 100], [8]), ([1, 102], [9])],
    next := none, lo := Bound.Inclusive [97], hi := Bound.Exclusive [120] }

theorem C10_set_replaces_in_place_witness :
    c10node.apply (Frag.Set [1, 100] [42]) none = Except.ok
      { c10node with data := Data.Leaf ([([1, 98], [7]), ([1, 100], [8]), ([1, 102], [9])].map fun r => if r.1 = [1, 100] then ([1, 100], [42]) else r) }
    ∧ ([([1, 98], [7]), ([1, 100], [8]), ([1, 102], [9])].map
          fun r => if r.1 = [1, 100] then ([1, 100], [42]) else r).Pairwise
        (fun a b => prefix_cmp a.1 b.1 = Ordering.lt) :=
  C10_set_replaces_in_place c10node
    [([1, 98], [7]), ([1, 100], [8]), ([1, 102], [9])] [1, 100] [8] [42] none
    (by decide) (by decide) (by decide) (by decide)

theorem merge_absent (n : Node) (rs : List (Key × Value)) (k : Key)
    (v : Value) (f : MergeOperator) (hd : n.data = Data.Leaf rs)
    (habs : ∀ r ∈ rs, prefix_cmp r.1 k ≠ Ordering.eq)
    (hg : Bound.lt (Bound.Inclusive (n.prefix_decode_key k)) n.hi = true) :
    n.apply (Frag.Merge k v) (some f) = Except.ok
      (match f (n.prefix_decode_key k) none v with
       | some u => { n with data := Data.Leaf (sortByB (fun a b => (prefix_cmp a.1 b.1).isLE) (rs ++ [(k, u)])) }
       | none => n) := by
  obtain ⟨j, hj⟩ := binarySearchBy_no_eq (f := fun r => prefix_cmp r.1 k)
    (l := rs) (by intro a ha; exact habs a ha)
  simp only [Node.apply, hg, if_true, Node.merge_leaf]
  rw [hd]
  dsimp only
  rw [hj]
  dsimp only
  cases hm : f (n.prefix_decode_key k) none v with
  | some u => rfl
  | none => rfl

theorem merge_found (n : Node) (A B : List (Key × Value)) (k : Key)
    (u1 v : Value) (f : MergeOperator)
    (hd : n.data = Data.Leaf (A ++ (k, u1) :: B))
    (hbs : binarySearchBy (fun r => prefix_cmp r.1 k) (A ++ (k, u1) :: B) =
      Sum.inl A.length)
    (hg : Bound.lt (Bound.Inclusive (n.prefix_decode_key k)) n.hi = true) :
    n.apply (Frag.Merge k v) (some f) = Except.ok
      (match f (n.prefix_decode_key k) (some u1) v with
       | some u2 => { n with data := Data.Leaf (A ++ (k, u2) :: B) }
       | none => { n with data := Data.Leaf (A ++ B) }) := by
  have hlen : A.length < (A ++ (k, u1) :: B).length := by
    simp only [List.length_append, List.length_cons]
    omega
  simp only [Node.apply, hg, if_true, Node.merge_leaf]
  rw [hd]
  dsimp only
  rw [hbs]
  dsimp only
  rw [getD_append_len]
  cases hm : f (n.prefix_decode_key k) (some u1) v with
  | some u2 =>
    dsimp only
    rw [swapRemove_append hlen, set_append_len]
  | none =>
    dsimp only
    rw [eraseIdx_append_len]

theorem leafValue_absent (n : Node) (rs : List (Key × Value)) (k : Key)
    (hd : n.data = Data.Leaf rs)
    (habs : ∀ r ∈ rs, prefix_cmp r.1 k ≠ Ordering.eq) :
    n.leafValue k = none := by
  simp only [Node.leafValue]
  rw [hd]
  dsimp only
  have hfind : rs.find? (fun r => decide (prefix_cmp r.1 k = Ordering.eq)) = none :=
    List.find?_eq_none.mpr (by
      intro x hx
      simp only [decide_eq_true_eq]
      exact habs x hx)
  rw [hfind]
  rfl

theorem leafValue_at (n : Node) (A B : List (Key × Value)) (k : Key) (u : Value)
    (hd : n.data = Data.Leaf (A ++ (k, u) :: B))
    (hA : ∀ r ∈ A, prefix_cmp r.1 k ≠ Ordering.eq) :
    n.leafValue k = some u := by
  simp only [Node.leafValue]
  rw [hd]
  dsimp only
  have hAnone : A.find? (fun r => decide (prefix_cmp r.1 k = Ordering.eq)) = none :=
    List.find?_eq_none.mpr (by
      intro x hx
      simp only [decide_eq_true_eq]
      exact hA x hx)
  rw [find?_append_of_none hAnone]
  simp [List.find?_cons, prefix_cmp_self]

/-- C6: on a leaf page with sorted duplicate-free records and a key absent
from them, two successive `Merge` fragments invoke the operator first with
the decoded key and no old value, then (if the first produced a result)
with that stored result; a `some` upserts and a `none` deletes, so the
final stored value matches the direct nested computation of the operator. -/
theorem C6_merge_semantics (n : Node) (rs : List (Key × Value)) (k : Key)
    (v1 v2 : Value) (f : MergeOperator)
    (hd : n.data = Data.Leaf rs)
    (hsort : rs.Pairwise (fun a b => prefix_cmp a.1 b.1 = Ordering.lt))
    (habs : ∀ r ∈ rs, prefix_cmp r.1 k ≠ Ordering.eq)
    (hg : Bound.lt (Bound.Inclusive (n.prefix_decode_key k)) n.hi = true) :
    ∃ n1 n2, n.apply (Frag.Merge k v1) (some f) = Except.ok n1
      ∧ n1.apply (Frag.Merge k v2) (some f) = Except.ok n2
      ∧ n2.leafValue k =
          (match f (n.prefix_decode_key k) none v1 with
           | some w1 => f (n.prefix_decode_key k) (some w1) v2
           | none => f (n.prefix_decode_key k) none v2) := by
  have happ1 := merge_absent n rs k v1 f hd habs hg
  cases hm1 : f (n.prefix_decode_key k) none v1 with
  | none =>
    rw [hm1] at happ1
    dsimp only at happ1
    have happ2 := merge_absent n rs k v2 f hd habs hg
    cases hm2 : f (n.prefix_decode_key k) none v2 with
    | none =>
      rw [hm2] at happ2
      dsimp only at happ2
      refine ⟨n, n, happ1, happ2, ?_⟩
      rw [leafValue_absent n rs k hd habs]
    | some u2 =>
      rw [hm2] at happ2
      dsimp only at happ2
      refine ⟨n, _, happ1, happ2, ?_⟩
      have hval : Node.leafValue { n with data := Data.Leaf (sortByB (fun a b => (prefix_cmp a.1 b.1).isLE) (rs ++ [(k, u2)])) } k = some u2 := by
        simp only [Node.leafValue]
        have hfind : (sortByB (fun a b => (prefix_cmp a.1 b.1).isLE)
            (rs ++ [(k, u2)])).find?
              (fun r => decide (prefix_cmp r.1 k = Ordering.eq)) = some (k, u2) := by
          refine find?_eq_some_of_unique ?_ ?_ ?_
          · exact mem_sortByB.mpr (by simp)
          · simp [prefix_cmp_self]
          · intro y hy hyp
            simp only [decide_eq_true_eq] at hyp
            rcases List.mem_append.mp (mem_sortByB.mp hy) with h2 | h2
            · exact absurd hyp (habs y h2)
            · simpa using h2
        rw [hfind]
        rfl
      rw [hval]
  | some u1 =>
    rw [hm1] at happ1
    dsimp only at happ1
    generalize hrs1 : sortByB (fun a b => (prefix_cmp a.1 b.1).isLE)
      (rs ++ [(k, u1)]) = rs1 at happ1
    have hperm : List.Perm rs1 (rs ++ [(k, u1)]) := by
      rw [← hrs1]
      exact sortByB_perm _ _
    have hsorted1 : rs1.Pairwise
        (fun a b => (prefix_cmp a.1 b.1).isLE = true) := by
      rw [← hrs1]
      refine @sortByB_sorted (Key × Value) (fun a b => (prefix_cmp a.1 b.1).isLE)
        (fun x y => prefix_cmp_isLE_total x.1 y.1) ?_ _
      intro x y z hxy hyz
      have h1 : (prefix_cmp x.1 y.1).isLE = true := hxy
      have h2 : (prefix_cmp y.1 z.1).isLE = true := hyz
      exact prefix_cmp_isLE_trans h1 h2
    have huniq1 : ∀ y ∈ rs1, prefix_cmp y.1 k = Ordering.eq → y = (k, u1) := by
      intro y hy hyk
      rcases List.mem_append.mp (hperm.subset hy) with h2 | h2
      · exact absurd hyk (habs y h2)
      · simpa using h2
    have hmem1 : (k, u1) ∈ rs1 := hperm.symm.subset (by simp)
    obtain ⟨A, B, hAB, hbs, hAlt⟩ :=
      @binarySearchBy_found _ (fun r => prefix_cmp r.1 k)
        (fun a b => (prefix_cmp a.1 b.1).isLE)
        (by
          intro a b hab hbk
          have hab' : (prefix_cmp a.1 b.1).isLE = true := hab
          have hbk' : prefix_cmp b.1 k = Ordering.eq := hbk
          show prefix_cmp a.1 k ≠ Ordering.gt
          have hbk1 : b.1 = k := prefix_cmp_eq_iff.mp hbk'
          rw [← hbk1]
          intro hgt
          rw [hgt] at hab'
          exact absurd hab' (by decide))
        rs1 (k, u1) hsorted1 hmem1 (prefix_cmp_self k) huniq1
    have hAne : ∀ r ∈ A, prefix_cmp r.1 k ≠ Ordering.eq := by
      intro r hr
      have h1 : prefix_cmp r.1 k = Ordering.lt := hAlt r hr
      rw [h1]
      simp
    have hnods : rs.Nodup := by
      refine hsort.imp ?_
      intro a b hab
      have hab' : prefix_cmp a.1 b.1 = Ordering.lt := hab
      intro heq
      rw [heq, prefix_cmp_self] at hab'
      exact absurd hab' (by simp)
    have hnotmem : (k, u1) ∉ rs := fun hmem =>
      habs (k, u1) hmem (prefix_cmp_self k)
    have hnodup : rs1.Nodup := by
      refine (hperm.nodup_iff).mpr ?_
      rw [List.nodup_append]
      refine ⟨hnods, List.nodup_singleton _, ?_⟩
      intro a ha hb
      simp only [List.mem_singleton] at hb
      subst hb
      exact hnotmem ha
    have hnotB : (k, u1) ∉ B := by
      rw [hAB] at hnodup
      have h1 := (List.nodup_append.mp hnodup).2.1
      exact (List.nodup_cons.mp h1).1
    have hBne : ∀ r ∈ B, prefix_cmp r.1 k ≠ Ordering.eq := by
      intro r hr hreq
      have hy : r ∈ rs1 := by rw [hAB]; simp [hr]
      have := huniq1 r hy hreq
      rw [this] at hr
      exact hnotB hr
    rw [hAB] at hbs
    have hd1 : Node.data { n with data := Data.Leaf rs1 } =
        Data.Leaf (A ++ (k, u1) :: B) := by
      dsimp only
      rw [hAB]
    have happ2 := merge_found { n with data := Data.Leaf rs1 } A B k u1 v2 f
      hd1 hbs hg
    dsimp only [Node.prefix_decode_key] at happ2
    cases hm2 : f (prefix_decode n.lo.inner k) (some u1) v2 with
    | some u2 =>
      rw [hm2] at happ2
      dsimp only at happ2
      refine ⟨_, _, happ1, happ2, ?_⟩
      have hval := leafValue_at
        { n with data := Data.Leaf (A ++ (k, u2) :: B) } A B k u2 rfl hAne
      rw [hval]
      simp only [Node.prefix_decode_key] at hm2 ⊢
      simp only [hm1, hm2]
    | none =>
      rw [hm2] at happ2
      dsimp only at happ2
      refine ⟨_, _, happ1, happ2, ?_⟩
      have hval := leafValue_absent
        { n with data := Data.Leaf (A ++ B) } (A ++ B) k rfl (by
          intro r hr
          rcases List.mem_append.mp hr with h2 | h2
          · exact hAne r h2
          · exact hBne r h2)
      rw [hval]
      simp only [Node.prefix_decode_key] at hm2 ⊢
      simp only [hm1, hm2]

def c6node : Node :=
  { id := 11, data := Data.Leaf [([1, 98], [7])], next := none,
    lo := Bound.Inclusive [97], hi := Bound.Exclusive [120] }

def c6op : MergeOperator := fun _ old v => some ((old.getD []) ++ v)

theorem C6_merge_semantics_witness :
    ∃ n1 n2, c6node.apply (Frag.Merge [1, 100] [3]) (some c6op) = Except.ok n1
      ∧ n1.apply (Frag.Merge [1, 100] [4]) (some c6op) = Except.ok n2
      ∧ n2.leafValue [1, 100] =
          (match c6op (c6node.prefix_decode_key [1, 100]) none [3] with
           | some w1 => c6op (c6node.prefix_decode_key [1, 100]) (some w1) [4]
           | none => c6op (c6node.prefix_decode_key [1, 100]) none [4]) :=
  C6_merge_semantics c6node [([1, 98], [7])] [1, 100] [3] [4] c6op
    (by decide) (by decide) (by decide) (by decide)

def c2Start : Node :=
  { id := 0, data := Data.Leaf [], next := none,
    lo := Bound.Inclusive [109], hi := Bound.Exclusive [122] }

def c2After : Node :=
  { id := 0, data := Data.Leaf [([0, 97], [1])], next := none,
    lo := Bound.Inclusive [109], hi := Bound.Exclusive [122] }

/-- C2 counterexample: `apply` checks a `Set` key only against `hi`, so a
fragment whose key decodes below `lo` (here "a" on a page
`[lo = "m", hi = "z")`) is applied successfully and leaves an entry whose
decoded key is outside `[lo, hi)`. -/
theorem C2_counterexample :
    c2Start.entriesInRange = true ∧
    applyChain c2Start none [Frag.Set [0, 97] [1]] = Except.ok c2After ∧
    c2After.entriesInRange = false := by
  decide

end Sled
